import Mathlib

/-!
Verification development for `dub.py` ("sub_tts_dub"): a movie player that
speaks subtitle cues with TTS in sync with video playback.

The definitions below are a shallow embedding of the program's pure core:

* `normalize_name`     — the filename normalizer (`normalize_name`, lines 27-36);
* `dropLeadingTag` …   — its three regex/unicode steps;
* `resolveSubtitles`   — the subtitle-resolution logic of
  `play_video_with_tts` (lines 206-245);
* `confirmSelection`   — the confirm action of
  `interactive_subtitle_selection` (lines 76-80);
* `generate_tts`       — the bulk speech-cache fill (lines 123-185), for the
  `google` and `edge` backends;
* `tick` / `runTicks`  — one iteration of the playback sync loop
  (lines 328-382) and a run over a sequence of polled positions;
* `speedRejected`      — the `--speed` validation in `__main__`
  (lines 432-434).

Python strings are modelled as `List Char`; machine time stamps
(`sub.start.ordinal`, milliseconds) as `Int`; the file system of the temp
directory as the list of audio-file ids present (file id `i+1` stands for
`sub_{i+1}.mp3`); each speech-synthesis backend call as an oracle
`synthOk : Nat → Bool` giving, per cue index, whether the call succeeds
(a `false` models the backend raising); the session stop flag as
`stop : Nat → Bool`, the value observed at the flag check of iteration `k`.
-/

/-! ### Characters

Character classes of the source's regexes, by code point. -/

/-- The class `[a-z0-9]` of `re.sub(r'[^a-z0-9]+', ' ', ...)` (line 35):
lowercase ASCII letters and digits, the only characters the final
substitution keeps. -/
def isKept (c : Char) : Bool :=
  (97 ≤ c.toNat && c.toNat ≤ 122) || (48 ≤ c.toNat && c.toNat ≤ 57)

/-- The separator class `[-_.]` of the release-tag regex `^\w+[-_.]`
(line 30). -/
def isTagSep (c : Char) : Bool :=
  c = '-' || c = '_' || c = '.'

/-- Python's `\w` (line 30), modelled on its ASCII range `[a-zA-Z0-9_]`.
(Python's regex also counts non-ASCII word characters; the claims checked
here only ever reach this test with ASCII data.) -/
def isWordChar (c : Char) : Bool :=
  (97 ≤ c.toNat && c.toNat ≤ 122) || (65 ≤ c.toNat && c.toNat ≤ 90) ||
    (48 ≤ c.toNat && c.toNat ≤ 57) || c = '_'

/-- `str.lower()` (line 35), modelled on the ASCII range: maps `A`-`Z` to
`a`-`z` and fixes everything else.  (Python also lowercases non-ASCII
letters; those are erased by the following `[^a-z0-9]` substitution either
way.) -/
def pyLower (c : Char) : Char :=
  if 65 ≤ c.toNat && c.toNat ≤ 90 then Char.ofNat (c.toNat + 32) else c

/-! ### Step 1 of `normalize_name`: `re.sub(r'^\w+[-_.]', '', name)`

The pattern matches greedily: `\w+` takes the maximal word-character run
and backtracks until the next character is in `[-_.]`, so the removed
piece ends at the LARGEST position `j ≥ 1` such that characters
`0..j-1` are word characters and character `j` is a separator. -/

/-- Length of the maximal word-character run at the start of `s`. -/
def wordRunLen : List Char → Nat
  | [] => 0
  | c :: cs => if isWordChar c then wordRunLen cs + 1 else 0

/-- Whether the character at position `j` of `s` is in `[-_.]`. -/
def isSepAt (s : List Char) (j : Nat) : Bool :=
  match s.get? j with
  | some c => isTagSep c
  | none => false

/-- Largest `j ∈ [1, n]` with `j ≤ wordRunLen s` and a separator at
position `j` — the end of the greedy match of `^\w+[-_.]`. -/
def matchEndAux (s : List Char) : Nat → Option Nat
  | 0 => none
  | n + 1 =>
    if (n + 1) ≤ wordRunLen s && isSepAt s (n + 1) then some (n + 1)
    else matchEndAux s n

/-- `re.sub(r'^\w+[-_.]', '', name)` (line 30): strip one leading
release-group/site tag. -/
def dropLeadingTag (s : List Char) : List Char :=
  match matchEndAux s (s.length - 1) with
  | some j => s.drop (j + 1)
  | none => s

/-! ### Step 2: NFKD decomposition and combining-mark removal (lines 32-33)

`unicodedata` is an external library.  Its use here is modelled by: NFKD
decomposition is the identity on ASCII (true of the real NFKD) with a
small table of common accented Latin letters, and `unicodedata.combining`
is nonzero exactly on the combining-mark blocks. -/

/-- NFKD decomposition of one character: identity on ASCII, a table for a
few common accented letters, identity elsewhere. -/
def nfkdChar (c : Char) : List Char :=
  if c.toNat ≤ 0x7F then [c]
  else if c = 'é' then ['e', '́']
  else if c = 'è' then ['e', '̀']
  else if c = 'ê' then ['e', '̂']
  else if c = 'à' then ['a', '̀']
  else if c = 'ç' then ['c', '̧']
  else if c = 'ü' then ['u', '̈']
  else if c = 'ö' then ['o', '̈']
  else if c = 'ñ' then ['n', '̃']
  else [c]

/-- `unicodedata.combining(c) != 0`, modelled by the Unicode
combining-mark blocks. -/
def isCombiningMark (c : Char) : Bool :=
  (0x300 ≤ c.toNat && c.toNat ≤ 0x36F) ||
    (0x1AB0 ≤ c.toNat && c.toNat ≤ 0x1AFF) ||
    (0x20D0 ≤ c.toNat && c.toNat ≤ 0x20FF) ||
    (0xFE20 ≤ c.toNat && c.toNat ≤ 0xFE2F)

/-- Lines 32-33: decompose and drop combining marks. -/
def stripAccents (s : List Char) : List Char :=
  (s.flatMap nfkdChar).filter (fun c => !isCombiningMark c)

/-! ### Step 3: `re.sub(r'[^a-z0-9]+', ' ', name.lower()).strip()` (line 35) -/

/-- Replace every maximal run of non-`[a-z0-9]` characters by one space.
The flag records whether we are currently inside such a run (its space has
already been emitted). -/
def collapseAux : Bool → List Char → List Char
  | _, [] => []
  | inRun, c :: cs =>
    if isKept c then c :: collapseAux false cs
    else if inRun then collapseAux true cs
    else ' ' :: collapseAux true cs

/-- `re.sub(r'[^a-z0-9]+', ' ', s)`. -/
def collapseRuns (s : List Char) : List Char :=
  collapseAux false s

/-- Remove a trailing whitespace run (`str.strip()`, right half). -/
def dropTrailing (s : List Char) : List Char :=
  (s.reverse.dropWhile Char.isWhitespace).reverse

/-- Python `str.strip()`. -/
def stripEnds (s : List Char) : List Char :=
  dropTrailing (s.dropWhile Char.isWhitespace)

/-- `normalize_name` (lines 27-36): strip one leading tag, strip
diacritics, lowercase, collapse non-alphanumeric runs to single spaces,
trim. -/
def normalize_name (s : List Char) : List Char :=
  stripEnds (collapseRuns ((stripAccents (dropLeadingTag s)).map pyLower))

/-! ### The normal form of `normalize_name` outputs -/

/-- A character admissible in a normalized name: lowercase ASCII letter,
digit, or space. -/
def normChar (c : Char) : Bool :=
  isKept c || c = ' '

/-- No two consecutive spaces. -/
def NoDoubleSpace (s : List Char) : Prop :=
  List.Chain' (fun a b => ¬(a = ' ' ∧ b = ' ')) s

instance (s : List Char) : Decidable (NoDoubleSpace s) := by
  unfold NoDoubleSpace; infer_instance

/-- The normal form claimed for `normalize_name` outputs: only lowercase
letters, digits and single spaces; no leading, trailing or doubled
space. -/
def NormForm (s : List Char) : Prop :=
  (∀ c ∈ s, normChar c = true) ∧ NoDoubleSpace s ∧
    s.head? ≠ some ' ' ∧ s.getLast? ≠ some ' '

/-! ### Cues and the speech cache (`generate_tts`, lines 123-185)

A `Cue` is one parsed subtitle (`pysrt` item): start/end times in
milliseconds (`sub.start.ordinal`, `sub.end.ordinal`) and the raw text. -/

structure Cue where
  startMs : Int
  endMs : Int
  text : List Char
deriving DecidableEq

/-- `sub.text.replace("\n", " ").strip()` (lines 137, 166, 349): the text a
cue is spoken with; a cue is blank iff this is empty. -/
def cleanedText (t : List Char) : List Char :=
  stripEnds (t.map (fun c => if c = '\n' then ' ' else c))

/-- The text of cue `i` (`subs[i].text`; `[]` out of range). -/
def textAt (subs : List Cue) (i : Nat) : List Char :=
  match subs.get? i with
  | some c => c.text
  | none => []

/-- The two TTS backends selected by `--tts-engine` (line 416). -/
inductive TtsEngine
  | google
  | edge
deriving DecidableEq, BEq

/-- Result of a bulk fill: `ok audio calls fs` returns the per-cue audio
entries (`audio_files`), the list of cue indices for which a synthesis
call was issued, and the resulting temp-dir contents; `raised j calls`
models an uncaught backend exception for cue `j` propagating out of the
call (as the edge path's `asyncio.run(generate_all_edge())` does). -/
inductive FillResult
  | ok (audio : List (Option Nat)) (calls : List Nat) (fs : List Nat)
  | raised (idx : Nat) (calls : List Nat)
deriving DecidableEq

/-- The `audio_files` array produced by a bulk fill (empty if it raised:
the caller never receives the array). -/
def FillResult.audioOut : FillResult → List (Option Nat)
  | .ok a _ _ => a
  | .raised _ _ => []

/-- The cue indices for which a synthesis call was issued. -/
def FillResult.callsOut : FillResult → List Nat
  | .ok _ c _ => c
  | .raised _ c => c

/-- The temp-dir contents after the fill (file ids present). -/
def FillResult.fsOut : FillResult → List Nat
  | .ok _ _ f => f
  | .raised _ _ => []

/-- Whether the bulk fill raised an exception out of the call. -/
def FillResult.didRaise : FillResult → Bool
  | .ok _ _ _ => false
  | .raised _ _ => true

/-- The `google` pre-cache loop (lines 158-181), one cue at a time from
offset `k`: at the top of each iteration the stop flag is checked
(`if stop_flag.is_set(): break`, remaining entries stay `None`); blank
cues are skipped; if `sub_{i}.mp3` already exists the entry is set without
a synthesis call; otherwise `gTTS(...).save` is called — on failure
(`except ... continue`) the entry stays `None` and the loop continues.
Returns `(audio_files, synthesis calls, files on disk)`. -/
def googleFillAux (stop synthOk : Nat → Bool) :
    List Cue → Nat → List Nat → List (Option Nat) × List Nat × List Nat
  | [], _, fs => ([], [], fs)
  | sub :: rest, k, fs =>
    if stop k then (List.replicate (sub :: rest).length none, [], fs)
    else if cleanedText sub.text = [] then
      let r := googleFillAux stop synthOk rest (k + 1) fs
      (none :: r.1, r.2.1, r.2.2)
    else if (k + 1) ∈ fs then
      let r := googleFillAux stop synthOk rest (k + 1) fs
      (some (k + 1) :: r.1, r.2.1, r.2.2)
    else if synthOk k then
      let r := googleFillAux stop synthOk rest (k + 1) ((k + 1) :: fs)
      (some (k + 1) :: r.1, k :: r.2.1, r.2.2)
    else
      let r := googleFillAux stop synthOk rest (k + 1) fs
      (none :: r.1, k :: r.2.1, r.2.2)

/-- The entry cue `i` ends with after a google bulk fill that was not
stopped: `None` for blank text; `sub_{i+1}.mp3` if the file exists or the
synthesis call succeeds; `None` after a caught failure. -/
def googleEntry (synthOk : Nat → Bool) (fs : List Nat) (i : Nat) (c : Cue) : Option Nat :=
  if cleanedText c.text = [] then none
  else if (i + 1) ∈ fs then some (i + 1)
  else if synthOk i then some (i + 1)
  else none

/-- The task list built by the edge pre-cache path (lines 135-143): cue
indices with non-blank text whose `sub_{i+1}.mp3` does not yet exist, in
cue order. -/
def edgeTasksAux (fs : List Nat) : List Cue → Nat → List Nat
  | [], _ => []
  | sub :: rest, i =>
    if cleanedText sub.text ≠ [] ∧ (i + 1) ∉ fs then i :: edgeTasksAux fs rest (i + 1)
    else edgeTasksAux fs rest (i + 1)

def edgeTasks (subs : List Cue) (fs : List Nat) : List Nat :=
  edgeTasksAux fs subs 0

/-- The edge pre-cache path (lines 131-154): all tasks are scheduled
concurrently under `asyncio.as_completed`, so a synthesis call is issued
for every task; `generate_all_edge` has no per-task exception handling,
so if any task fails the exception propagates out of `asyncio.run` (the
`raised` case — no `audio_files` array reaches the caller).  The loop
never consults the stop flag.  (`as_completed` yields in completion
order; which entries were written before a raise is order-dependent and
not needed here, so the success case applies all writes.) -/
def edgeFill (subs : List Cue) (synthOk : Nat → Bool) (fs : List Nat) : FillResult :=
  match (edgeTasks subs fs).find? (fun i => !synthOk i) with
  | some j => .raised j (edgeTasks subs fs)
  | none =>
    .ok ((edgeTasks subs fs).foldl (fun a i => a.set i (some (i + 1)))
        (List.replicate subs.length none))
      (edgeTasks subs fs) ((edgeTasks subs fs).map (fun i => i + 1) ++ fs)

/-- `generate_tts` (lines 123-185).  With `pre_cache` false, no generation
happens (`audio_files` stays all `None`).  With `pre_cache` true, the
google path runs the interruptible per-cue loop; the edge path runs the
concurrent batch, which never reads the stop flag. -/
def generate_tts (engine : TtsEngine) (pre_cache : Bool) (subs : List Cue)
    (stop synthOk : Nat → Bool) (fs : List Nat) : FillResult :=
  match engine, pre_cache with
  | .google, true =>
    let r := googleFillAux stop synthOk subs 0 fs
    .ok r.1 r.2.1 r.2.2
  | .edge, true => edgeFill subs synthOk fs
  | _, false => .ok (List.replicate subs.length none) [] fs

/-! ### The sync loop (lines 328-382) -/

/-- `sub.start.ordinal <= current_time_ms <= sub.end.ordinal` (line 343). -/
def cueContains (c : Cue) (t : Int) : Prop :=
  c.startMs ≤ t ∧ t ≤ c.endMs

instance (c : Cue) (t : Int) : Decidable (cueContains c t) := by
  unfold cueContains; infer_instance

def findActiveCueAux (t : Int) : List Cue → Nat → Option Nat
  | [], _ => none
  | c :: rest, i =>
    if cueContains c t then some i else findActiveCueAux t rest (i + 1)

/-- The cue-resolution scan of lines 342-343: enumerate cues in index
order and stop at the first whose `[start, end]` interval contains the
polled position (the `break` at line 380). -/
def findActiveCue (subs : List Cue) (t : Int) : Option Nat :=
  findActiveCueAux t subs 0

/-- The sync loop's mutable state: `last_index` (line 328, `-1` before any
cue is spoken) and the `audio_files` array. -/
structure LoopState where
  lastIndex : Int
  audioFiles : List (Option Nat)
deriving DecidableEq

/-- One iteration of the sync loop body (lines 342-380) at polled position
`t` (already converted to milliseconds).  Returns the new state, the cue
index whose clip was started (if any), and the on-demand synthesis calls
issued (the file write on success is implicit in the entry update).
Mirrors the source: resolve the first matching cue; do nothing if it
equals `last_index`; otherwise play its cached clip, or on-demand
generate it first — blank text and synthesis failure just set
`last_index` (failure is not otherwise recorded). -/
def tick (subs : List Cue) (synthOk : Nat → Bool) (st : LoopState) (t : Int) :
    LoopState × Option Nat × List Nat :=
  match findActiveCue subs t with
  | none => (st, none, [])
  | some i =>
    if (i : Int) = st.lastIndex then (st, none, [])
    else
      match st.audioFiles.getD i none with
      | some _ => ({ st with lastIndex := (i : Int) }, some i, [])
      | none =>
        if cleanedText (textAt subs i) = [] then
          ({ st with lastIndex := (i : Int) }, none, [])
        else if synthOk i then
          ({ lastIndex := (i : Int), audioFiles := st.audioFiles.set i (some (i + 1)) },
            some i, [i])
        else ({ st with lastIndex := (i : Int) }, none, [i])

/-- Run the sync loop over a sequence of polled positions, collecting the
cue indices whose clips were started and the on-demand synthesis calls
issued, in order. -/
def runTicks (subs : List Cue) (synthOk : Nat → Bool) :
    LoopState → List Int → LoopState × List Nat × List Nat
  | st, [] => (st, [], [])
  | st, t :: ts =>
    let r := tick subs synthOk st t
    let rest := runTicks subs synthOk r.1 ts
    (rest.1, r.2.1.toList ++ rest.2.1, r.2.2 ++ rest.2.2)

/-! ### Speed validation (`__main__`, lines 432-434) -/

/-- Lines 432-434: the session is rejected before playback iff the engine
is `google` and the speed is outside `[0.5, 2.0]`.  No check exists for
the edge engine. -/
def speedRejected (engine : TtsEngine) (speed : ℚ) : Bool :=
  engine == TtsEngine.google && (speed < 1/2 || 2 < speed)

/-! ### Subtitle resolution (lines 206-245) and the interactive picker -/

/-- Outcome of `interactive_subtitle_selection` as consumed by the caller:
a chosen filename, the "play without subtitles" sentinel (Python `None`),
or `"CANCEL"`. -/
inductive PickResult
  | file (f : List Char)
  | noSubs
  | cancel

/-- Outcome of the subtitle-resolution block of `play_video_with_tts`:
`noneFound` — zero candidates, an error is printed and the function
returns early with no subtitle path (lines 214-216); `auto` — the single
candidate, joined to the directory (lines 218-220); `picked`,
`withoutSubs`, `cancelled` — the picker outcomes (lines 236-245). -/
inductive SubResolution
  | noneFound
  | auto (path : List Char)
  | picked (path : List Char)
  | withoutSubs
  | cancelled
deriving DecidableEq

/-- `os.path.join(video_dir, f)` for a plain relative name. -/
def joinPath (d f : List Char) : List Char :=
  d ++ '/' :: f

/-- `os.path.splitext(name)[0]` for ordinary names: drop the last
dot-extension, keeping dotfiles whole. -/
def dropExt (f : List Char) : List Char :=
  match f.reverse.dropWhile (fun c => c ≠ '.') with
  | [] => f
  | _ :: rest => if rest = [] then f else rest.reverse

/-- The subtitle-resolution block (lines 212-245), with the directory
listing, the `difflib.SequenceMatcher(None, a, b).ratio()` collaborator
and the interactive picker as parameters.  Returns the outcome plus two
flags: whether similarity scoring ran and whether the picker was invoked
(both happen only in the more-than-one-candidate branch).  Sorting is by
score descending (line 234). -/
def resolveSubtitles (videoDir videoBase : List Char) (srtFiles : List (List Char))
    (ratio : List Char → List Char → ℚ) (pick : List (List Char × ℚ) → PickResult) :
    SubResolution × Bool × Bool :=
  match srtFiles with
  | [] => (.noneFound, false, false)
  | [f] => (.auto (joinPath videoDir f), false, false)
  | _ :: _ :: _ =>
    let scored := srtFiles.map (fun f =>
      (f, ratio (normalize_name videoBase) (normalize_name (dropExt f))))
    let sorted := scored.mergeSort (fun a b => b.2 ≤ a.2)
    match pick sorted with
    | .cancel => (.cancelled, true, true)
    | .noSubs => (.withoutSubs, true, true)
    | .file f => (.picked (joinPath videoDir f), true, true)

/-- Whether `pat` occurs as a contiguous substring — Python's
`pat in s`. -/
def leadsWith : List Char → List Char → Bool
  | [], _ => true
  | _ :: _, [] => false
  | p :: ps, c :: cs => p = c && leadsWith ps cs

def hasSub (pat : List Char) : List Char → Bool
  | [] => pat.isEmpty
  | c :: cs => leadsWith pat (c :: cs) || hasSub pat cs

/-- The substring tested at lines 61 and 78. -/
def sentinelText : List Char :=
  "None of the above".data

/-- The appended menu entry (line 53). -/
def noneOptionLabel : List Char :=
  "None of the above (play without subtitles)".data

/-- Line 53: the menu is the scored candidates plus the sentinel entry. -/
def pickerOptions (scored : List (List Char × ℚ)) : List (List Char × ℚ) :=
  scored ++ [(noneOptionLabel, 0)]

/-- The ENTER branch of `interactive_subtitle_selection` (lines 76-80):
take the option under the cursor; if its label contains
`"None of the above"` return Python `None` (play without subtitles),
otherwise return the label.  (The cursor is always in range in the
source; out of range is mapped to `none` here.) -/
def confirmSelection (scored : List (List Char × ℚ)) (idx : Nat) : Option (List Char) :=
  match (pickerOptions scored).get? idx with
  | none => none
  | some lf => if hasSub sentinelText lf.1 then none else some lf.1

/-! ### Character-class facts -/

theorem normChar_cases (c : Char) (h : normChar c = true) :
    (97 ≤ c.toNat ∧ c.toNat ≤ 122) ∨ (48 ≤ c.toNat ∧ c.toNat ≤ 57) ∨ c = ' ' := by
  simp only [normChar, isKept, Bool.or_eq_true, Bool.and_eq_true, decide_eq_true_eq] at h
  tauto

theorem normChar_not_sep (c : Char) (h : normChar c = true) : isTagSep c = false := by
  cases hc : isTagSep c
  · rfl
  · exfalso
    simp only [isTagSep, Bool.or_eq_true, decide_eq_true_eq] at hc
    rcases hc with (rfl | rfl) | rfl <;> exact absurd h (by decide)

theorem normChar_ascii (c : Char) (h : normChar c = true) : c.toNat ≤ 0x7F := by
  rcases normChar_cases c h with ⟨h1, h2⟩ | ⟨h1, h2⟩ | rfl
  · omega
  · omega
  · decide

theorem isKept_ne_space (c : Char) (h : isKept c = true) : c ≠ ' ' := by
  intro hc
  subst hc
  exact absurd h (by decide)

theorem isKept_not_whitespace (c : Char) (h : isKept c = true) :
    c.isWhitespace = false := by
  simp only [isKept, Bool.or_eq_true, Bool.and_eq_true, decide_eq_true_eq] at h
  simp only [Char.isWhitespace, Bool.or_eq_false_iff, decide_eq_false_iff_not]
  refine ⟨⟨⟨?_, ?_⟩, ?_⟩, ?_⟩ <;> intro hc <;> subst hc <;> revert h <;> decide

/-! ### `collapseAux` output structure -/

theorem collapseAux_mem (b : Bool) (s : List Char) :
    ∀ c ∈ collapseAux b s, normChar c = true := by
  induction s generalizing b with
  | nil => simp [collapseAux]
  | cons c cs ih =>
    intro d hd
    by_cases hk : isKept c
    · simp only [collapseAux, hk, if_true] at hd
      rcases List.mem_cons.mp hd with rfl | hd
      · simp [normChar, hk]
      · exact ih false d hd
    · cases b with
      | true =>
        simp only [collapseAux, hk, if_false, if_true] at hd
        exact ih true d hd
      | false =>
        simp only [collapseAux, hk, if_false] at hd
        rcases List.mem_cons.mp hd with rfl | hd
        · decide
        · exact ih true d hd

theorem collapseAux_true_head (s : List Char) :
    (collapseAux true s).head? ≠ some ' ' := by
  induction s with
  | nil => simp [collapseAux]
  | cons c cs ih =>
    by_cases hk : isKept c
    · simp only [collapseAux, hk, if_true, List.head?_cons, ne_eq, Option.some.injEq]
      intro hc
      exact isKept_ne_space c hk hc
    · simpa only [collapseAux, hk, if_false, if_true] using ih

theorem collapseAux_chain (b : Bool) (s : List Char) :
    NoDoubleSpace (collapseAux b s) := by
  induction s generalizing b with
  | nil => simp [collapseAux, NoDoubleSpace]
  | cons c cs ih =>
    by_cases hk : isKept c
    · show NoDoubleSpace (collapseAux b (c :: cs))
      unfold NoDoubleSpace
      simp only [collapseAux, hk, if_true]
      refine List.chain'_cons'.mpr ⟨?_, ih false⟩
      intro y _ hy
      exact isKept_ne_space c hk hy.1
    · cases b with
      | true =>
        unfold NoDoubleSpace
        simp only [collapseAux, hk, if_false, if_true]
        exact ih true
      | false =>
        unfold NoDoubleSpace
        simp only [collapseAux, hk, if_false]
        refine List.chain'_cons'.mpr ⟨?_, ih true⟩
        intro y hy hc
        exact collapseAux_true_head cs (by rw [hy, hc.2])

/-! ### `stripEnds` structure -/

theorem dropWhile_head_not (p : Char → Bool) (l : List Char) (c : Char)
    (h : (l.dropWhile p).head? = some c) : p c = false := by
  induction l with
  | nil => simp [List.dropWhile] at h
  | cons a l ih =>
    rw [List.dropWhile_cons] at h
    by_cases hp : p a
    · rw [if_pos hp] at h
      exact ih h
    · rw [if_neg hp] at h
      simp only [List.head?_cons, Option.some.injEq] at h
      subst h
      simpa using hp

theorem dropTrailing_isPre (s : List Char) : dropTrailing s <+: s := by
  have h := List.reverse_prefix.mpr (List.dropWhile_suffix (l := s.reverse) Char.isWhitespace)
  rwa [List.reverse_reverse] at h

theorem stripEnds_isInf (s : List Char) : stripEnds s <:+: s :=
  (dropTrailing_isPre _).isInfix.trans (List.dropWhile_suffix _).isInfix

theorem stripEnds_head (s : List Char) (c : Char)
    (h : (stripEnds s).head? = some c) : c.isWhitespace = false := by
  have hpre := dropTrailing_isPre (s.dropWhile Char.isWhitespace)
  obtain ⟨t, ht⟩ := hpre
  have : (s.dropWhile Char.isWhitespace).head? = some c := by
    rw [← ht, List.head?_append]
    unfold stripEnds at h
    rw [h]
    rfl
  exact dropWhile_head_not _ _ _ this

theorem stripEnds_getLast (s : List Char) (c : Char)
    (h : (stripEnds s).getLast? = some c) : c.isWhitespace = false := by
  unfold stripEnds dropTrailing at h
  rw [List.getLast?_reverse] at h
  exact dropWhile_head_not _ _ _ h

/-- The output of `normalize_name` is in normal form: only lowercase ASCII
letters, digits and single separating spaces, with no leading or trailing
space. -/
theorem normalize_name_normForm (s : List Char) : NormForm (normalize_name s) := by
  unfold normalize_name
  set t := (stripAccents (dropLeadingTag s)).map pyLower with ht
  refine ⟨?_, ?_, ?_, ?_⟩
  · intro c hc
    exact collapseAux_mem false t c ((stripEnds_isInf _).sublist.subset hc)
  · have h0 : NoDoubleSpace (collapseRuns t) := collapseAux_chain false t
    unfold NoDoubleSpace at h0 ⊢
    have h1 : List.Chain' (fun a b => ¬(a = ' ' ∧ b = ' '))
        ((collapseRuns t).dropWhile Char.isWhitespace) := by
      obtain ⟨u, hu⟩ := List.dropWhile_suffix (l := collapseRuns t) Char.isWhitespace
      rw [← hu] at h0
      exact h0.right_of_append
    obtain ⟨u, hu⟩ := dropTrailing_isPre ((collapseRuns t).dropWhile Char.isWhitespace)
    rw [← hu] at h1
    exact h1.left_of_append
  · intro hc
    have := stripEnds_head _ _ hc
    simp at this
  · intro hc
    have := stripEnds_getLast _ _ hc
    simp at this

/-! ### `normalize_name` fixes strings in normal form -/

theorem matchEndAux_none (s : List Char) (hs : ∀ c ∈ s, isTagSep c = false) :
    ∀ n, matchEndAux s n = none := by
  intro n
  induction n with
  | zero => rfl
  | succ n ih =>
    have hsep : isSepAt s (n + 1) = false := by
      unfold isSepAt
      cases hg : s.get? (n + 1) with
      | none => rfl
      | some c => exact hs c (List.get?_mem hg)
    simp [matchEndAux, hsep, ih]

theorem dropLeadingTag_id (s : List Char) (hs : ∀ c ∈ s, isTagSep c = false) :
    dropLeadingTag s = s := by
  unfold dropLeadingTag
  rw [matchEndAux_none s hs]

theorem stripAccents_id (s : List Char) (hs : ∀ c ∈ s, normChar c = true) :
    stripAccents s = s := by
  induction s with
  | nil => rfl
  | cons c cs ih =>
    have hc : normChar c = true := hs c (by simp)
    have h127 : c.toNat ≤ 0x7F := normChar_ascii c hc
    have hone : nfkdChar c = [c] := by unfold nfkdChar; rw [if_pos h127]
    have hnc : isCombiningMark c = false := by
      simp only [isCombiningMark, Bool.or_eq_false_iff, Bool.and_eq_false_iff,
        decide_eq_false_iff_not]
      omega
    have ih' := ih (fun d hd => hs d (by simp [hd]))
    unfold stripAccents at *
    rw [List.flatMap_cons, List.filter_append, hone]
    simp only [List.filter_cons, hnc, Bool.not_false, if_true, List.filter_nil]
    rw [List.singleton_append, ih']

theorem pyLower_id (c : Char) (h : normChar c = true) : pyLower c = c := by
  unfold pyLower
  rw [if_neg]
  intro hcond
  simp only [Bool.and_eq_true, decide_eq_true_eq] at hcond
  rcases normChar_cases c h with ⟨h1, h2⟩ | ⟨h1, h2⟩ | rfl
  · omega
  · omega
  · revert hcond; decide

theorem map_pyLower_id (s : List Char) (hs : ∀ c ∈ s, normChar c = true) :
    s.map pyLower = s := by
  induction s with
  | nil => rfl
  | cons c cs ih =>
    rw [List.map_cons, pyLower_id c (hs c (by simp)),
      ih (fun d hd => hs d (by simp [hd]))]

theorem collapseAux_cons (b : Bool) (c : Char) (cs : List Char) :
    collapseAux b (c :: cs) =
      if isKept c then c :: collapseAux false cs
      else if b then collapseAux true cs
      else ' ' :: collapseAux true cs := by
  cases b <;> rfl

theorem collapseAux_id (s : List Char) (hmem : ∀ c ∈ s, normChar c = true)
    (hchain : NoDoubleSpace s) (hlast : s.getLast? ≠ some ' ') :
    collapseAux false s = s ∧ (s.head? ≠ some ' ' → collapseAux true s = s) := by
  induction s with
  | nil => exact ⟨rfl, fun _ => rfl⟩
  | cons c cs ih =>
    have hc := hmem c (by simp)
    have hcs : ∀ d ∈ cs, normChar d = true := fun d hd => hmem d (by simp [hd])
    have hpair := (List.chain'_cons'.mp hchain).1
    have hch' : NoDoubleSpace cs := (List.chain'_cons'.mp hchain).2
    by_cases hk : isKept c
    · have hlast' : cs.getLast? ≠ some ' ' := by
        cases cs with
        | nil => simp
        | cons d ds => rwa [List.getLast?_cons_cons] at hlast
      obtain ⟨h1, _⟩ := ih hcs hch' hlast'
      refine ⟨?_, fun _ => ?_⟩ <;>
        simp only [collapseAux, hk, if_true, h1]
    · have hsp : c = ' ' := by
        rcases normChar_cases c hc with ⟨h1, h2⟩ | ⟨h1, h2⟩ | rfl
        · exact absurd (by simp [isKept]; omega) hk
        · exact absurd (by simp [isKept]; omega) hk
        · rfl
      subst hsp
      cases cs with
      | nil => simp at hlast
      | cons d ds =>
        have hlast' : (d :: ds).getLast? ≠ some ' ' := by
          rwa [List.getLast?_cons_cons] at hlast
        have hhead : (d :: ds).head? ≠ some ' ' := by
          intro hh
          simp only [List.head?_cons, Option.some.injEq] at hh
          exact hpair ' ' (by simp [hh]) ⟨rfl, rfl⟩
        have h2 := (ih hcs hch' hlast').2 hhead
        refine ⟨?_, fun hcontr => ?_⟩
        · rw [collapseAux_cons, if_neg hk, if_neg (by simp), h2]
        · simp at hcontr

theorem dropWhile_id_of_head (l : List Char) (p : Char → Bool)
    (h : ∀ c, l.head? = some c → p c = false) : l.dropWhile p = l := by
  cases l with
  | nil => rfl
  | cons a t =>
    rw [List.dropWhile_cons, if_neg]
    simp [h a rfl]

theorem stripEnds_id (s : List Char) (hmem : ∀ c ∈ s, normChar c = true)
    (hh : s.head? ≠ some ' ') (hl : s.getLast? ≠ some ' ') : stripEnds s = s := by
  have hws : ∀ c ∈ s, c ≠ ' ' → c.isWhitespace = false := by
    intro c hcmem hcne
    rcases normChar_cases c (hmem c hcmem) with ⟨h1, h2⟩ | ⟨h1, h2⟩ | rfl
    · exact isKept_not_whitespace c (by simp [isKept]; omega)
    · exact isKept_not_whitespace c (by simp [isKept]; omega)
    · exact absurd rfl hcne
  have h1 : s.dropWhile Char.isWhitespace = s := by
    apply dropWhile_id_of_head
    intro c hc
    apply hws c (List.mem_of_mem_head? hc)
    intro hcsp
    exact hh (by rw [hc, hcsp])
  have h2 : s.reverse.dropWhile Char.isWhitespace = s.reverse := by
    apply dropWhile_id_of_head
    intro c hc
    rw [List.head?_reverse] at hc
    apply hws c (List.mem_of_mem_getLast? hc)
    intro hcsp
    exact hl (by rw [hc, hcsp])
  unfold stripEnds dropTrailing
  rw [h1, h2, List.reverse_reverse]

/-- A string already in normal form is fixed by `normalize_name`: the
tag-stripping regex cannot match (no `-`, `_` or `.` present), NFKD and
lowercasing fix lowercase ASCII, and the collapse/strip step fixes
single-spaced trimmed strings. -/
theorem normalize_name_id (s : List Char) (h : NormForm s) : normalize_name s = s := by
  obtain ⟨hmem, hchain, hhead, hlast⟩ := h
  have h1 : dropLeadingTag s = s :=
    dropLeadingTag_id s (fun c hc => normChar_not_sep c (hmem c hc))
  have h2 : stripAccents s = s := stripAccents_id s hmem
  have h3 : s.map pyLower = s := map_pyLower_id s hmem
  have h4 : collapseRuns s = s := (collapseAux_id s hmem hchain hlast).1
  have h5 : stripEnds s = s := stripEnds_id s hmem hhead hlast
  unfold normalize_name
  rw [h1, h2, h3, h4, h5]

/-- C7: `normalize_name` is idempotent, and its output contains only
lowercase ASCII letters, digits and single spaces — no leading space, no
trailing space, no two consecutive spaces (`NormForm`). -/
theorem C7_normalize_idempotent_normform (s : List Char) :
    normalize_name (normalize_name s) = normalize_name s ∧
      NormForm (normalize_name s) :=
  ⟨normalize_name_id _ (normalize_name_normForm s), normalize_name_normForm s⟩

/-! ### Sync-loop lemmas -/

theorem findActiveCueAux_spec (t : Int) :
    ∀ (subs : List Cue) (off i : Nat), findActiveCueAux t subs off = some i →
      ∃ k, i = off + k ∧ (∃ c, subs.get? k = some c ∧ cueContains c t) ∧
        ∀ j, j < k → ∀ c, subs.get? j = some c → ¬cueContains c t := by
  intro subs
  induction subs with
  | nil => intro off i h; simp [findActiveCueAux] at h
  | cons c cs ih =>
    intro off i h
    rw [findActiveCueAux] at h
    by_cases hc : cueContains c t
    · rw [if_pos hc] at h
      injection h with h
      refine ⟨0, by omega, ⟨c, rfl, hc⟩, ?_⟩
      intro j hj
      omega
    · rw [if_neg hc] at h
      obtain ⟨k, hk, hget, hmin⟩ := ih (off + 1) i h
      refine ⟨k + 1, by omega, by simpa using hget, ?_⟩
      intro j hj d hd
      cases j with
      | zero =>
        simp only [List.get?_cons_zero, Option.some.injEq] at hd
        subst hd
        exact hc
      | succ j' =>
        exact hmin j' (by omega) d (by simpa using hd)

/-- C1: for every cue list and polled position, the sync loop's scan
(lines 342-343, with the `break` at 380) selects the first cue in index
order whose `[start, end]` interval contains the position; in particular
for overlapping cues `[0,1000]` and `[500,1500]` at position 700 it
selects the lower index, 0. -/
theorem C1_sync_first_match :
    (∀ (subs : List Cue) (t : Int) (i : Nat), findActiveCue subs t = some i →
      (∃ c, subs.get? i = some c ∧ cueContains c t) ∧
        ∀ j, j < i → ∀ c, subs.get? j = some c → ¬cueContains c t) ∧
    findActiveCue [⟨0, 1000, []⟩, ⟨500, 1500, []⟩] 700 = some 0 := by
  constructor
  · intro subs t i h
    obtain ⟨k, hk, hget, hmin⟩ := findActiveCueAux_spec t subs 0 i h
    have hik : i = k := by omega
    subst hik
    exact ⟨hget, hmin⟩
  · decide

theorem C1_sync_first_match_witness :
    (∃ c, ([⟨0, 1000, []⟩, ⟨500, 1500, []⟩] : List Cue).get? 0 = some c ∧
        cueContains c 700) ∧
      ∀ j, j < 0 → ∀ c, ([⟨0, 1000, []⟩, ⟨500, 1500, []⟩] : List Cue).get? j = some c →
        ¬cueContains c 700 :=
  C1_sync_first_match.1 [⟨0, 1000, []⟩, ⟨500, 1500, []⟩] 700 0 (by decide)

theorem tick_same (subs : List Cue) (synthOk : Nat → Bool) (st : LoopState) (t : Int)
    (j : Nat) (hfind : findActiveCue subs t = some j) (hlast : st.lastIndex = (j : Int)) :
    tick subs synthOk st t = (st, none, []) := by
  simp only [tick, hfind]
  rw [if_pos hlast.symm]

theorem tick_play (subs : List Cue) (synthOk : Nat → Bool) (st : LoopState) (t : Int)
    (j f : Nat) (hfind : findActiveCue subs t = some j)
    (hlast : (j : Int) ≠ st.lastIndex)
    (hready : st.audioFiles.getD j none = some f) :
    tick subs synthOk st t = ({ st with lastIndex := (j : Int) }, some j, []) := by
  simp only [tick, hfind]
  rw [if_neg hlast, hready]

theorem tick_fail (subs : List Cue) (synthOk : Nat → Bool) (st : LoopState) (t : Int)
    (j : Nat) (hfind : findActiveCue subs t = some j)
    (hlast : (j : Int) ≠ st.lastIndex)
    (hentry : st.audioFiles.getD j none = none)
    (hnonblank : cleanedText (textAt subs j) ≠ [])
    (hfail : synthOk j = false) :
    tick subs synthOk st t = ({ st with lastIndex := (j : Int) }, none, [j]) := by
  simp only [tick, hfind]
  rw [if_neg hlast, hentry, if_neg hnonblank, hfail]
  simp

/-- While the matched cue equals `last_index`, a tick does nothing: no
playback, no synthesis call, state unchanged. -/
theorem runTicks_steady (subs : List Cue) (synthOk : Nat → Bool) (j : Nat) :
    ∀ (ps : List Int) (st : LoopState), st.lastIndex = (j : Int) →
      (∀ p ∈ ps, findActiveCue subs p = some j) →
      runTicks subs synthOk st ps = (st, [], []) := by
  intro ps
  induction ps with
  | nil => intro st _ _; rfl
  | cons t ts ih =>
    intro st hlast hall
    have h1 : tick subs synthOk st t = (st, none, []) :=
      tick_same _ _ _ _ j (hall t (by simp)) hlast
    simp only [runTicks, h1]
    rw [ih st hlast (fun p hp => hall p (by simp [hp]))]
    rfl

/-- C2: across a run of consecutive polls that all resolve to the same cue
`j` (a position sequence advancing through `j`'s interval), with `j`'s
clip cached and `last_index ≠ j` at the start, the loop starts `j`'s clip
exactly once (the played list is `[j]`) and issues no synthesis call: the
`i != last_index` guard (line 344) suppresses every later tick. -/
theorem C2_single_trigger (subs : List Cue) (synthOk : Nat → Bool) (st : LoopState)
    (j : Nat) (ps : List Int) (hne : ps ≠ [])
    (hall : ∀ p ∈ ps, findActiveCue subs p = some j)
    (hlast : st.lastIndex ≠ (j : Int)) (f : Nat)
    (hready : st.audioFiles.getD j none = some f) :
    (runTicks subs synthOk st ps).2.1 = [j] ∧ (runTicks subs synthOk st ps).2.2 = [] := by
  cases ps with
  | nil => exact absurd rfl hne
  | cons t ts =>
    have h1 := tick_play subs synthOk st t j f (hall t (by simp)) (Ne.symm hlast) hready
    have h2 := runTicks_steady subs synthOk j ts { st with lastIndex := (j : Int) } rfl
      (fun p hp => hall p (by simp [hp]))
    simp [runTicks, h1, h2]

theorem C2_single_trigger_witness :
    (runTicks [⟨0, 1000, "hi".data⟩] (fun _ => true) ⟨-1, [some 1]⟩
        [100, 200, 300]).2.1 = [0] ∧
      (runTicks [⟨0, 1000, "hi".data⟩] (fun _ => true) ⟨-1, [some 1]⟩
        [100, 200, 300]).2.2 = [] :=
  C2_single_trigger [⟨0, 1000, "hi".data⟩] (fun _ => true) ⟨-1, [some 1]⟩ 0
    [100, 200, 300] (by decide) (by decide) (by decide) 1 (by decide)

/-- C4 counterexample: a failed on-demand attempt is NOT sticky.  With a
backend that always fails (`synthOk ≡ false`), polling positions
`5, 25, 5` over cues `[0,10]` and `[20,30]`: the attempt for cue 0 at
position 5 errors, the loop moves to cue 1 at position 25, and re-entering
cue 0's interval issues a SECOND synthesis call for cue 0 — the failure
was never recorded (`audio_files[0]` stays `None`, only `last_index`
changed), so the claim "no further synthesis call is ever issued for that
cue index" is false on the code. -/
theorem C4_failed_cue_retried :
    ((runTicks [⟨0, 10, "hello".data⟩, ⟨20, 30, "world".data⟩] (fun _ => false)
      ⟨-1, [none, none]⟩ [5, 25, 5]).2.2).count 0 = 2 := by decide

/-- C4 amended: after a failed on-demand attempt, the cue is not retried
for as long as it stays the matched cue — consecutive polls resolving to
the same failed cue `j` issue exactly one synthesis call and no playback.
(The suppression comes from `last_index`, not from any recorded `Failed`
state; once another cue is matched, re-entering `j`'s interval calls the
backend again, as `C4_failed_cue_retried` shows.) -/
theorem C4_no_retry_while_active (subs : List Cue) (synthOk : Nat → Bool) (st : LoopState)
    (j : Nat) (ps : List Int) (hne : ps ≠ [])
    (hall : ∀ p ∈ ps, findActiveCue subs p = some j)
    (hlast : st.lastIndex ≠ (j : Int))
    (hentry : st.audioFiles.getD j none = none)
    (hnonblank : cleanedText (textAt subs j) ≠ [])
    (hfail : synthOk j = false) :
    (runTicks subs synthOk st ps).2.2 = [j] ∧ (runTicks subs synthOk st ps).2.1 = [] := by
  cases ps with
  | nil => exact absurd rfl hne
  | cons t ts =>
    have h1 := tick_fail subs synthOk st t j (hall t (by simp)) (Ne.symm hlast)
      hentry hnonblank hfail
    have h2 := runTicks_steady subs synthOk j ts { st with lastIndex := (j : Int) } rfl
      (fun p hp => hall p (by simp [hp]))
    simp [runTicks, h1, h2]

theorem C4_no_retry_while_active_witness :
    (runTicks [⟨0, 10, "hi".data⟩] (fun _ => false) ⟨-1, [none]⟩ [1, 2, 3]).2.2 = [0] ∧
      (runTicks [⟨0, 10, "hi".data⟩] (fun _ => false) ⟨-1, [none]⟩ [1, 2, 3]).2.1 = [] :=
  C4_no_retry_while_active [⟨0, 10, "hi".data⟩] (fun _ => false) ⟨-1, [none]⟩ 0 [1, 2, 3]
    (by decide) (by decide) (by decide) (by decide) (by decide) (by decide)

/-! ### Bulk-fill lemmas (google path) -/

theorem googleFillAux_cons (stop synthOk : Nat → Bool) (sub : Cue) (rest : List Cue)
    (k : Nat) (fs : List Nat) :
    googleFillAux stop synthOk (sub :: rest) k fs =
      if stop k then (List.replicate (sub :: rest).length none, [], fs)
      else if cleanedText sub.text = [] then
        let r := googleFillAux stop synthOk rest (k + 1) fs
        (none :: r.1, r.2.1, r.2.2)
      else if (k + 1) ∈ fs then
        let r := googleFillAux stop synthOk rest (k + 1) fs
        (some (k + 1) :: r.1, r.2.1, r.2.2)
      else if synthOk k then
        let r := googleFillAux stop synthOk rest (k + 1) ((k + 1) :: fs)
        (some (k + 1) :: r.1, k :: r.2.1, r.2.2)
      else
        let r := googleFillAux stop synthOk rest (k + 1) fs
        (none :: r.1, k :: r.2.1, r.2.2) := rfl

theorem googleEntry_ne (synthOk : Nat → Bool) (fs : List Nat) (m i : Nat) (c : Cue)
    (h : i + 1 ≠ m) : googleEntry synthOk (m :: fs) i c = googleEntry synthOk fs i c := by
  unfold googleEntry
  by_cases hb : cleanedText c.text = []
  · rw [if_pos hb, if_pos hb]
  · rw [if_neg hb, if_neg hb]
    by_cases hfs : (i + 1) ∈ fs
    · rw [if_pos (List.mem_cons_of_mem m hfs), if_pos hfs]
    · rw [if_neg ?_, if_neg hfs]
      intro hcon
      rcases List.mem_cons.mp hcon with heq | hin
      · exact h heq
      · exact hfs hin

/-- Entry characterization of an unstopped google bulk fill: the entry of
cue `j` (absolute index `k + j`) depends only on that cue's own blank
test, file-existence test and synthesis outcome. -/
theorem googleFillAux_get (synthOk : Nat → Bool) :
    ∀ (subs : List Cue) (k : Nat) (fs : List Nat) (j : Nat) (c : Cue),
      subs.get? j = some c →
      ((googleFillAux (fun _ => false) synthOk subs k fs).1).get? j =
        some (googleEntry synthOk fs (k + j) c) := by
  intro subs
  induction subs with
  | nil => intro k fs j c h; simp at h
  | cons sub rest ih =>
    intro k fs j c h
    rw [googleFillAux_cons, if_neg (by simp)]
    cases j with
    | zero =>
      simp only [List.get?_cons_zero, Option.some.injEq] at h
      subst h
      by_cases hb : cleanedText sub.text = []
      · rw [if_pos hb]
        simp [googleEntry, hb]
      · rw [if_neg hb]
        by_cases hfs : (k + 1) ∈ fs
        · rw [if_pos hfs]
          simp [googleEntry, hb, hfs]
        · rw [if_neg hfs]
          by_cases hok : synthOk k
          · rw [if_pos hok]
            simp [googleEntry, hb, hfs, hok]
          · rw [if_neg hok]
            simp [googleEntry, hb, hfs, hok]
    | succ j' =>
      simp only [List.get?_cons_succ] at h
      have harith : k + (j' + 1) = (k + 1) + j' := by omega
      rw [harith]
      by_cases hb : cleanedText sub.text = []
      · rw [if_pos hb]
        simp only [List.get?_cons_succ]
        exact ih (k + 1) fs j' c h
      · rw [if_neg hb]
        by_cases hfs : (k + 1) ∈ fs
        · rw [if_pos hfs]
          simp only [List.get?_cons_succ]
          exact ih (k + 1) fs j' c h
        · rw [if_neg hfs]
          by_cases hok : synthOk k
          · rw [if_pos hok]
            simp only [List.get?_cons_succ]
            rw [ih (k + 1) ((k + 1) :: fs) j' c h,
              googleEntry_ne synthOk fs (k + 1) (k + 1 + j') c (by omega)]
          · rw [if_neg hok]
            simp only [List.get?_cons_succ]
            exact ih (k + 1) fs j' c h

theorem googleFillAux_fs_mono (stop synthOk : Nat → Bool) :
    ∀ (subs : List Cue) (k : Nat) (fs : List Nat) (x : Nat), x ∈ fs →
      x ∈ (googleFillAux stop synthOk subs k fs).2.2 := by
  intro subs
  induction subs with
  | nil => intro k fs x hx; exact hx
  | cons sub rest ih =>
    intro k fs x hx
    rw [googleFillAux_cons]
    by_cases hs : stop k
    · rw [if_pos hs]; exact hx
    · rw [if_neg hs]
      by_cases hb : cleanedText sub.text = []
      · rw [if_pos hb]; exact ih (k + 1) fs x hx
      · rw [if_neg hb]
        by_cases hfs : (k + 1) ∈ fs
        · rw [if_pos hfs]; exact ih (k + 1) fs x hx
        · rw [if_neg hfs]
          by_cases hok : synthOk k
          · rw [if_pos hok]
            exact ih (k + 1) ((k + 1) :: fs) x (List.mem_cons_of_mem _ hx)
          · rw [if_neg hok]; exact ih (k + 1) fs x hx

/-- After an unstopped google bulk fill whose synthesis calls all succeed,
the file of every non-blank cue is on disk. -/
theorem googleFillAux_fs_add (synthOk : Nat → Bool) (hok : ∀ i, synthOk i = true) :
    ∀ (subs : List Cue) (k : Nat) (fs : List Nat) (j : Nat) (c : Cue),
      subs.get? j = some c → cleanedText c.text ≠ [] →
      (k + j + 1) ∈ (googleFillAux (fun _ => false) synthOk subs k fs).2.2 := by
  intro subs
  induction subs with
  | nil => intro k fs j c h; simp at h
  | cons sub rest ih =>
    intro k fs j c h hnb
    rw [googleFillAux_cons, if_neg (by simp)]
    cases j with
    | zero =>
      simp only [List.get?_cons_zero, Option.some.injEq] at h
      subst h
      rw [if_neg hnb]
      by_cases hfs : (k + 1) ∈ fs
      · rw [if_pos hfs]
        exact googleFillAux_fs_mono _ _ rest (k + 1) fs _ (by simpa using hfs)
      · rw [if_neg hfs, if_pos (hok k)]
        exact googleFillAux_fs_mono _ _ rest (k + 1) ((k + 1) :: fs) _ (by simp)
    | succ j' =>
      simp only [List.get?_cons_succ] at h
      have harith : k + (j' + 1) + 1 = (k + 1) + j' + 1 := by omega
      rw [harith]
      by_cases hb : cleanedText sub.text = []
      · rw [if_pos hb]; exact ih (k + 1) fs j' c h hnb
      · rw [if_neg hb]
        by_cases hfs : (k + 1) ∈ fs
        · rw [if_pos hfs]; exact ih (k + 1) fs j' c h hnb
        · rw [if_neg hfs, if_pos (hok k)]
          exact ih (k + 1) ((k + 1) :: fs) j' c h hnb

/-- If every non-blank cue's file already exists, an unstopped google bulk
fill issues no synthesis call. -/
theorem googleFillAux_calls_nil (synthOk : Nat → Bool) :
    ∀ (subs : List Cue) (k : Nat) (fs : List Nat),
      (∀ j c, subs.get? j = some c → cleanedText c.text ≠ [] → (k + j + 1) ∈ fs) →
      (googleFillAux (fun _ => false) synthOk subs k fs).2.1 = [] := by
  intro subs
  induction subs with
  | nil => intro k fs _; rfl
  | cons sub rest ih =>
    intro k fs hcov
    rw [googleFillAux_cons, if_neg (by simp)]
    have hcov' : ∀ j c, rest.get? j = some c → cleanedText c.text ≠ [] →
        ((k + 1) + j + 1) ∈ fs := by
      intro j c hj hnb
      have := hcov (j + 1) c (by simpa using hj) hnb
      have harith : k + (j + 1) + 1 = (k + 1) + j + 1 := by omega
      rwa [harith] at this
    by_cases hb : cleanedText sub.text = []
    · rw [if_pos hb]; exact ih (k + 1) fs hcov'
    · rw [if_neg hb, if_pos (by simpa using hcov 0 sub rfl hb)]
      exact ih (k + 1) fs hcov'

/-! ### Bulk-fill lemmas (edge path, stop behaviour, `generate_tts`) -/

theorem generate_tts_google (subs : List Cue) (stop synthOk : Nat → Bool) (fs : List Nat) :
    generate_tts TtsEngine.google true subs stop synthOk fs =
      .ok (googleFillAux stop synthOk subs 0 fs).1
        (googleFillAux stop synthOk subs 0 fs).2.1
        (googleFillAux stop synthOk subs 0 fs).2.2 := rfl

theorem generate_tts_edge (subs : List Cue) (stop synthOk : Nat → Bool) (fs : List Nat) :
    generate_tts TtsEngine.edge true subs stop synthOk fs = edgeFill subs synthOk fs := rfl

theorem audioOut_ok (a : List (Option Nat)) (c f : List Nat) :
    (FillResult.ok a c f).audioOut = a := rfl

theorem callsOut_ok (a : List (Option Nat)) (c f : List Nat) :
    (FillResult.ok a c f).callsOut = c := rfl

theorem fsOut_ok (a : List (Option Nat)) (c f : List Nat) :
    (FillResult.ok a c f).fsOut = f := rfl

/-- A stopped google bulk fill breaks immediately: no synthesis calls,
every entry still `None`. -/
theorem googleFillAux_stop (stop synthOk : Nat → Bool) (subs : List Cue) (k : Nat)
    (fs : List Nat) (hs : stop k = true) :
    googleFillAux stop synthOk subs k fs = (List.replicate subs.length none, [], fs) := by
  cases subs with
  | nil => rfl
  | cons sub rest => rw [googleFillAux_cons, if_pos hs]

theorem getD_replicate_none (n i : Nat) :
    (List.replicate n (none : Option Nat)).getD i none = none := by
  induction n generalizing i with
  | zero => rfl
  | succ n ihn =>
    cases i with
    | zero => rfl
    | succ i' => exact ihn i'

/-- With a monotone stop flag set by iteration `m`, the google bulk fill
issues synthesis calls only for cues before `m` and leaves every entry
from `m` on untouched (`None`). -/
theorem googleFillAux_stop_tail (stop synthOk : Nat → Bool)
    (hmono : ∀ a b, a ≤ b → stop a = true → stop b = true) (m : Nat) (hm : stop m = true) :
    ∀ (subs : List Cue) (k : Nat) (fs : List Nat),
      (∀ i ∈ (googleFillAux stop synthOk subs k fs).2.1, i < m) ∧
      (∀ j, m ≤ j → ((googleFillAux stop synthOk subs k fs).1).getD (j - k) none = none) := by
  intro subs
  induction subs with
  | nil =>
    intro k fs
    exact ⟨fun i hi => absurd hi (by simp [googleFillAux]), fun j _ => rfl⟩
  | cons sub rest ih =>
    intro k fs
    by_cases hs : stop k
    · rw [googleFillAux_stop stop synthOk _ k fs hs]
      exact ⟨fun i hi => absurd hi (by simp), fun j _ => getD_replicate_none _ _⟩
    · have hkm : k < m := by
        rcases Nat.lt_or_ge k m with h | h
        · exact h
        · exact absurd (hmono m k h hm) hs
      rw [googleFillAux_cons, if_neg hs]
      have hcons : ∀ (e : Option Nat) (a : List (Option Nat)), ∀ j, m ≤ j →
          a.getD (j - (k + 1)) none = none → (e :: a).getD (j - k) none = none := by
        intro e a j hj ha
        have hsub : j - k = (j - (k + 1)) + 1 := by omega
        rw [hsub, List.getD_cons_succ]
        exact ha
      by_cases hb : cleanedText sub.text = []
      · rw [if_pos hb]
        exact ⟨(ih (k + 1) fs).1,
          fun j hj => hcons _ _ j hj ((ih (k + 1) fs).2 j hj)⟩
      · rw [if_neg hb]
        by_cases hfs : (k + 1) ∈ fs
        · rw [if_pos hfs]
          exact ⟨(ih (k + 1) fs).1,
            fun j hj => hcons _ _ j hj ((ih (k + 1) fs).2 j hj)⟩
        · rw [if_neg hfs]
          by_cases hok : synthOk k
          · rw [if_pos hok]
            refine ⟨?_, fun j hj => hcons _ _ j hj ((ih (k + 1) ((k + 1) :: fs)).2 j hj)⟩
            intro i hi
            simp only [List.mem_cons] at hi
            rcases hi with rfl | hi
            · exact hkm
            · exact (ih (k + 1) ((k + 1) :: fs)).1 i hi
          · rw [if_neg hok]
            refine ⟨?_, fun j hj => hcons _ _ j hj ((ih (k + 1) fs).2 j hj)⟩
            intro i hi
            simp only [List.mem_cons] at hi
            rcases hi with rfl | hi
            · exact hkm
            · exact (ih (k + 1) fs).1 i hi

theorem edgeTasksAux_cons (fs : List Nat) (sub : Cue) (rest : List Cue) (i : Nat) :
    edgeTasksAux fs (sub :: rest) i =
      if cleanedText sub.text ≠ [] ∧ (i + 1) ∉ fs then i :: edgeTasksAux fs rest (i + 1)
      else edgeTasksAux fs rest (i + 1) := rfl

/-- If every non-blank cue's file already exists, the edge path builds no
tasks. -/
theorem edgeTasksAux_covered (fs : List Nat) :
    ∀ (subs : List Cue) (k : Nat),
      (∀ j c, subs.get? j = some c → cleanedText c.text ≠ [] → (k + j + 1) ∈ fs) →
      edgeTasksAux fs subs k = [] := by
  intro subs
  induction subs with
  | nil => intro k _; rfl
  | cons sub rest ih =>
    intro k hcov
    rw [edgeTasksAux_cons, if_neg]
    · apply ih
      intro j c hj hnb
      have := hcov (j + 1) c (by simpa using hj) hnb
      have harith : k + (j + 1) + 1 = (k + 1) + j + 1 := by omega
      rwa [harith] at this
    · rintro ⟨hnb, hnf⟩
      exact hnf (by simpa using hcov 0 sub rfl hnb)

/-- A non-blank cue without an existing file is in the edge task list. -/
theorem edgeTasksAux_mem (fs : List Nat) :
    ∀ (subs : List Cue) (k j : Nat) (c : Cue), subs.get? j = some c →
      cleanedText c.text ≠ [] → (k + j + 1) ∉ fs → (k + j) ∈ edgeTasksAux fs subs k := by
  intro subs
  induction subs with
  | nil => intro k j c h; simp at h
  | cons sub rest ih =>
    intro k j c h hnb hnf
    rw [edgeTasksAux_cons]
    cases j with
    | zero =>
      simp only [List.get?_cons_zero, Option.some.injEq] at h
      subst h
      rw [if_pos ⟨hnb, by simpa using hnf⟩]
      simp
    | succ j' =>
      simp only [List.get?_cons_succ] at h
      have harith : k + (j' + 1) = (k + 1) + j' := by omega
      have hnf' : ((k + 1) + j' + 1) ∉ fs := by
        intro hcon
        exact hnf (by rw [show k + (j' + 1) + 1 = (k + 1) + j' + 1 by omega]; exact hcon)
      have hin := ih (k + 1) j' c h hnb hnf'
      rw [harith]
      by_cases hcond : cleanedText sub.text ≠ [] ∧ (k + 1) ∉ fs
      · rw [if_pos hcond]
        exact List.mem_cons_of_mem _ hin
      · rw [if_neg hcond]
        exact hin

/-- An edge bulk fill whose synthesis calls all succeed returns `ok`: the
calls are exactly the task list and the tasks' files are added to the
temp dir. -/
theorem edgeFill_all_ok (subs : List Cue) (synthOk : Nat → Bool) (fs : List Nat)
    (hok : ∀ i, synthOk i = true) :
    edgeFill subs synthOk fs =
      .ok ((edgeTasks subs fs).foldl (fun a i => a.set i (some (i + 1)))
          (List.replicate subs.length none))
        (edgeTasks subs fs) ((edgeTasks subs fs).map (fun i => i + 1) ++ fs) := by
  have hfind : (edgeTasks subs fs).find? (fun i => !synthOk i) = none := by
    rw [List.find?_eq_none]
    intro i _
    simp [hok i]
  unfold edgeFill
  rw [hfind]

/-- C3 counterexample: the edge bulk fill is NOT failure-isolated and DOES
raise.  With three non-blank cues and only cue 1's synthesis failing, the
whole edge bulk-fill call raises (the exception propagates out of
`asyncio.run(generate_all_edge())` — there is no per-task handler), so
"the bulk-fill operation does not raise ... for either backend" is false
on the code. -/
theorem C3_edge_bulk_raises :
    generate_tts TtsEngine.edge true
        [⟨0, 10, "a".data⟩, ⟨20, 30, "b".data⟩, ⟨40, 50, "c".data⟩]
        (fun _ => false) (fun i => !(i == 1)) [] = FillResult.raised 1 [0, 1, 2] := by decide

/-- C3 amended: per-cue failure isolation holds for the GOOGLE bulk fill
(the `try/except ... continue` at lines 172-177): the call never raises
and each cue's final entry depends only on that cue's own blank test,
file-existence test and synthesis outcome (`googleEntry`), so a failing
cue is skipped while every other non-blank cue still reaches Ready.
Concretely, with cue 1's synthesis failing, cues 0 and 2 still get their
files and cue 1 stays ungenerated.  (The edge path instead raises on any
failure: `C3_edge_bulk_raises`.) -/
theorem C3_google_failure_isolation :
    (∀ (subs : List Cue) (synthOk : Nat → Bool) (fs : List Nat) (j : Nat) (c : Cue),
      subs.get? j = some c →
        (generate_tts TtsEngine.google true subs (fun _ => false) synthOk fs).didRaise
            = false ∧
          ((generate_tts TtsEngine.google true subs (fun _ => false) synthOk
            fs).audioOut).get? j = some (googleEntry synthOk fs j c)) ∧
    (generate_tts TtsEngine.google true
        [⟨0, 10, "a".data⟩, ⟨20, 30, "b".data⟩, ⟨40, 50, "c".data⟩]
        (fun _ => false) (fun i => !(i == 1)) []).audioOut = [some 1, none, some 3] := by
  constructor
  · intro subs synthOk fs j c h
    refine ⟨rfl, ?_⟩
    rw [generate_tts_google, audioOut_ok]
    have := googleFillAux_get synthOk subs 0 fs j c h
    simpa using this
  · decide

theorem C3_google_failure_isolation_witness :
    (generate_tts TtsEngine.google true [⟨0, 10, "a".data⟩] (fun _ => false)
        (fun _ => false) []).didRaise = false ∧
      ((generate_tts TtsEngine.google true [⟨0, 10, "a".data⟩] (fun _ => false)
        (fun _ => false) []).audioOut).get? 0 =
        some (googleEntry (fun _ => false) [] 0 ⟨0, 10, "a".data⟩) :=
  C3_google_failure_isolation.1 [⟨0, 10, "a".data⟩] (fun _ => false) [] 0
    ⟨0, 10, "a".data⟩ rfl

/-- C5 counterexample: on the edge backend, a second bulk fill over a temp
dir that already holds the cue's audio file issues no synthesis call but
does NOT mark the entry Ready: no task is created for an existing file,
so `audio_files[0]` is never assigned and stays `None` — falsifying "for
every cue whose audio file already exists at the deterministic per-index
path, the entry is marked Ready". -/
theorem C5_edge_second_run_not_ready :
    ((generate_tts TtsEngine.edge true [⟨0, 10, "a".data⟩] (fun _ => false) (fun _ => true)
        ((generate_tts TtsEngine.edge true [⟨0, 10, "a".data⟩] (fun _ => false)
          (fun _ => true) []).fsOut)).audioOut).get? 0 = some none ∧
      (generate_tts TtsEngine.edge true [⟨0, 10, "a".data⟩] (fun _ => false) (fun _ => true)
        ((generate_tts TtsEngine.edge true [⟨0, 10, "a".data⟩] (fun _ => false)
          (fun _ => true) []).fsOut)).callsOut = [] := by decide

/-- C5 amended: after a first bulk fill whose synthesis calls all succeed,
a second bulk fill on the same cue set and temp dir issues ZERO synthesis
calls on either backend; but only the google backend marks every
non-blank cue Ready on the re-run (entry `sub_{j+1}.mp3`) — the edge
backend leaves the entries unassigned (see
`C5_edge_second_run_not_ready`). -/
theorem C5_second_run_no_calls (subs : List Cue) (synthOk1 synthOk2 : Nat → Bool)
    (fs0 : List Nat) (hok : ∀ i, synthOk1 i = true) :
    ((generate_tts TtsEngine.google true subs (fun _ => false) synthOk2
        ((generate_tts TtsEngine.google true subs (fun _ => false) synthOk1
          fs0).fsOut)).callsOut = [] ∧
      ∀ j c, subs.get? j = some c → cleanedText c.text ≠ [] →
        ((generate_tts TtsEngine.google true subs (fun _ => false) synthOk2
          ((generate_tts TtsEngine.google true subs (fun _ => false) synthOk1
            fs0).fsOut)).audioOut).get? j = some (some (j + 1))) ∧
    (generate_tts TtsEngine.edge true subs (fun _ => false) synthOk2
        ((generate_tts TtsEngine.edge true subs (fun _ => false) synthOk1
          fs0).fsOut)).callsOut = [] := by
  simp only [generate_tts_google, generate_tts_edge, callsOut_ok, fsOut_ok, audioOut_ok]
  have hfs1cov : ∀ j c, subs.get? j = some c → cleanedText c.text ≠ [] →
      (j + 1) ∈ (googleFillAux (fun _ => false) synthOk1 subs 0 fs0).2.2 := by
    intro j c hj hnb
    have := googleFillAux_fs_add synthOk1 hok subs 0 fs0 j c hj hnb
    simpa using this
  refine ⟨⟨?_, ?_⟩, ?_⟩
  · exact googleFillAux_calls_nil synthOk2 subs 0 _
      (fun j c hj hnb => by simpa using hfs1cov j c hj hnb)
  · intro j c hj hnb
    rw [googleFillAux_get synthOk2 subs 0 _ j c hj]
    have hmem := hfs1cov j c hj hnb
    simp [googleEntry, hnb, hmem]
  · rw [edgeFill_all_ok subs synthOk1 fs0 hok, fsOut_ok]
    have hcov : ∀ j c, subs.get? j = some c → cleanedText c.text ≠ [] →
        (0 + j + 1) ∈ ((edgeTasks subs fs0).map (fun i => i + 1) ++ fs0) := by
      intro j c hj hnb
      rw [List.mem_append]
      by_cases hfs : (j + 1) ∈ fs0
      · right
        simpa using hfs
      · left
        have hmem := edgeTasksAux_mem fs0 subs 0 j c hj hnb (by simpa using hfs)
        have : j + 1 ∈ (edgeTasks subs fs0).map (fun i => i + 1) := by
          refine List.mem_map.mpr ⟨j, by simpa [edgeTasks] using hmem, rfl⟩
        simpa using this
    have htasks : edgeTasks subs ((edgeTasks subs fs0).map (fun i => i + 1) ++ fs0) = [] :=
      edgeTasksAux_covered _ subs 0 hcov
    simp [edgeFill, edgeTasks] at htasks ⊢
    simp [htasks, FillResult.callsOut]

theorem C5_second_run_no_calls_witness :
    ((generate_tts TtsEngine.google true [⟨0, 10, "a".data⟩] (fun _ => false) (fun _ => true)
        ((generate_tts TtsEngine.google true [⟨0, 10, "a".data⟩] (fun _ => false)
          (fun _ => true) []).fsOut)).callsOut = [] ∧
      ∀ j c, ([⟨0, 10, "a".data⟩] : List Cue).get? j = some c →
        cleanedText c.text ≠ [] →
        ((generate_tts TtsEngine.google true [⟨0, 10, "a".data⟩] (fun _ => false)
          (fun _ => true)
          ((generate_tts TtsEngine.google true [⟨0, 10, "a".data⟩] (fun _ => false)
            (fun _ => true) []).fsOut)).audioOut).get? j = some (some (j + 1))) ∧
    (generate_tts TtsEngine.edge true [⟨0, 10, "a".data⟩] (fun _ => false) (fun _ => true)
        ((generate_tts TtsEngine.edge true [⟨0, 10, "a".data⟩] (fun _ => false)
          (fun _ => true) []).fsOut)).callsOut = [] :=
  C5_second_run_no_calls [⟨0, 10, "a".data⟩] (fun _ => true) (fun _ => true) []
    (fun _ => rfl)

/-- C6 counterexample: the edge bulk fill never observes the stop flag.
With the session stop flag set before the first iteration
(`stop ≡ true`), the google path issues no synthesis call, but the edge
path still issues its call — falsifying "bulk fill (for either backend)
is interruptible by the session-wide stop signal". -/
theorem C6_edge_ignores_stop :
    (generate_tts TtsEngine.edge true [⟨0, 10, "a".data⟩] (fun _ => true) (fun _ => true)
        []).callsOut = [0] ∧
      (generate_tts TtsEngine.google true [⟨0, 10, "a".data⟩] (fun _ => true) (fun _ => true)
        []).callsOut = [] := by decide

/-- C6 amended: the GOOGLE bulk fill is interruptible: with a monotone
stop flag that is set by iteration `m`, the loop issues synthesis calls
only for cues before `m`, and every cue from `m` on keeps its
not-yet-generated `None` entry (the loop `break`s at the first stop check
that fires, line 163-164).  The edge path never reads the flag
(`C6_edge_ignores_stop`). -/
theorem C6_google_stop_interrupts (subs : List Cue) (stop synthOk : Nat → Bool)
    (fs : List Nat) (m : Nat)
    (hmono : ∀ a b, a ≤ b → stop a = true → stop b = true) (hm : stop m = true) :
    (∀ i ∈ (generate_tts TtsEngine.google true subs stop synthOk fs).callsOut, i < m) ∧
      ∀ j, m ≤ j →
        ((generate_tts TtsEngine.google true subs stop synthOk fs).audioOut).getD j none
          = none := by
  have h := googleFillAux_stop_tail stop synthOk hmono m hm subs 0 fs
  rw [generate_tts_google, callsOut_ok, audioOut_ok]
  refine ⟨h.1, fun j hj => ?_⟩
  have := h.2 j hj
  simpa using this

theorem C6_google_stop_interrupts_witness :
    (∀ i ∈ (generate_tts TtsEngine.google true [⟨0, 10, "a".data⟩, ⟨20, 30, "b".data⟩]
        (fun k => decide (1 ≤ k)) (fun _ => true) []).callsOut, i < 1) ∧
      ∀ j, 1 ≤ j →
        ((generate_tts TtsEngine.google true [⟨0, 10, "a".data⟩, ⟨20, 30, "b".data⟩]
          (fun k => decide (1 ≤ k)) (fun _ => true) []).audioOut).getD j none = none :=
  C6_google_stop_interrupts [⟨0, 10, "a".data⟩, ⟨20, 30, "b".data⟩]
    (fun k => decide (1 ≤ k)) (fun _ => true) [] 1
    (fun a b hab ha => by
      simp only [decide_eq_true_eq] at ha ⊢
      omega)
    (by decide)

/-! ### Resolver, rate validation, picker sentinel -/

/-- C8: with no explicit subtitle path, zero `.srt` candidates yield no
subtitle path (the function prints an error and returns — Python `None`),
and exactly one candidate is selected directly (joined to the video's
directory) without invoking similarity scoring or the interactive picker:
both flags stay `false`, as scoring and the picker live only in the
more-than-one-candidate branch (lines 212-245). -/
theorem C8_resolver_zero_and_one :
    (∀ (d b : List Char) (ratio : List Char → List Char → ℚ)
        (pick : List (List Char × ℚ) → PickResult),
      resolveSubtitles d b [] ratio pick = (.noneFound, false, false)) ∧
    ∀ (d b f : List Char) (ratio : List Char → List Char → ℚ)
        (pick : List (List Char × ℚ) → PickResult),
      resolveSubtitles d b [f] ratio pick = (.auto (joinPath d f), false, false) :=
  ⟨fun _ _ _ _ => rfl, fun _ _ _ _ _ => rfl⟩

theorem beq_google_google : (TtsEngine.google == TtsEngine.google) = true := rfl

theorem beq_edge_google : (TtsEngine.edge == TtsEngine.google) = false := rfl

/-- C9 counterexample: the requested speech rate is NOT validated for the
edge backend.  `__main__` only checks `args.speed` when
`args.tts_engine == 'google'` (line 432), so an edge session with speed
100 — far outside any supported Edge TTS rate (it becomes the rate string
`"+9900%"`) — is not rejected, while the same speed on google is.  This
falsifies "rejects the rate ... for both backends". -/
theorem C9_edge_rate_not_validated :
    speedRejected TtsEngine.edge 100 = false ∧
      speedRejected TtsEngine.google 100 = true := by
  constructor
  · norm_num [speedRejected, beq_edge_google]
  · norm_num [speedRejected, beq_google_google]

/-- C9 amended: rate validation happens once at session start
(`__main__`, before `play_video_with_tts` and hence before any synthesis
call) but only for the google backend: any rate outside `[0.5, 2.0]` is
rejected there, while the edge backend's rate is never validated at
all. -/
theorem C9_google_rate_rejected (q : ℚ) (h : q < 1/2 ∨ 2 < q) :
    speedRejected TtsEngine.google q = true ∧
      ∀ p : ℚ, speedRejected TtsEngine.edge p = false := by
  constructor
  · unfold speedRejected
    rw [beq_google_google]
    rcases h with h | h
    · norm_num [h]
    · norm_num [h]
  · intro p
    unfold speedRejected
    rw [beq_edge_google]
    simp

theorem C9_google_rate_rejected_witness :
    speedRejected TtsEngine.google 3 = true ∧
      ∀ p : ℚ, speedRejected TtsEngine.edge p = false :=
  C9_google_rate_rejected 3 (Or.inr (by norm_num))

/-- C10: the picker's confirm action recognizes the none-sentinel purely
by the substring test `"None of the above" in chosen_file` (line 78): any
menu option whose label contains that substring — including a genuine
subtitle file so named — confirms to Python `None` (play without
subtitles) instead of the filename, so such a file can never be
selected. -/
theorem C10_sentinel_substring :
    (∀ (scored : List (List Char × ℚ)) (idx : Nat) (label : List Char) (q : ℚ),
      (pickerOptions scored).get? idx = some (label, q) →
      hasSub sentinelText label = true → confirmSelection scored idx = none) ∧
    confirmSelection [("My None of the above film.srt".data, 1)] 0 = none := by
  constructor
  · intro scored idx label q hget hsubstr
    unfold confirmSelection
    rw [hget]
    simp [hsubstr]
  · decide

theorem C10_sentinel_substring_witness :
    confirmSelection [("None of the above 2.srt".data, 9/10)] 0 = none :=
  C10_sentinel_substring.1 [("None of the above 2.srt".data, 9/10)] 0
    "None of the above 2.srt".data (9/10) rfl (by decide)
